import Mathlib

/-!
Verification of the `logger` C++ header (src/logger.h): a shallow embedding
of its data model and operations, with theorems settling the specification
claims.

Conventions of the embedding:
* a `std::deque<Entry>` becomes `List Entry` (front = list head);
* a C `int` becomes `Int`; C++ integer division truncates toward zero, so
  `severity/100*100` is `Int.tdiv severity 100 * 100`;
* the record field `time` is a `double` used purely as payload (no claim
  depends on rounding), modelled as `Rat`;
* code guarded by a mutex is modelled as atomic steps of a transition
  relation; each step corresponds to one critical section of the source;
* `pop_front` on an empty deque is undefined behavior; fallible operations
  return `Option`, with `none` marking that branch.
-/

namespace LoggerSpec

/-- The record type `logger::Entry` from src/logger.h: `double time;
int severity; std::string context; std::string message`. -/
structure Entry where
  time : Rat
  severity : Int
  context : String
  message : String
deriving DecidableEq

/-- The `logger::severities()` table: `{0:"info", 100:"warning",
200:"error", 1000:"fatal error"}` (a `std::map<int, std::string>`,
modelled as an association list; `find` is `List.lookup`). -/
def severities : List (Int × String) :=
  [(0, "info"), (100, "warning"), (200, "error"), (1000, "fatal error")]

/-- The function `logger::sevname`: exact lookup of `severity`; on a miss,
lookup of `severity/100*100` (C++ division truncates toward zero, hence
`Int.tdiv`); on a second miss, `stringf("severity=%i", severity)`. -/
def sevname (severity : Int) : String :=
  match severities.lookup severity with
  | some s => s
  | none =>
    match severities.lookup (Int.tdiv severity 100 * 100) with
    | some s => s
    | none => "severity=" ++ toString severity

/-- The eviction loop of `MemLogger::log`:
`while (max_size != -1 && int(q.size()) > max_size) q.pop_front();`.
Here `none` models `pop_front` on an empty deque (undefined behavior). -/
def evictLoop (max_size : Int) : List Entry → Option (List Entry)
  | [] =>
    if max_size ≠ -1 ∧ ((([] : List Entry).length : Int) > max_size) then none
    else some []
  | e :: q =>
    if max_size ≠ -1 ∧ (((e :: q).length : Int) > max_size) then
      evictLoop max_size q
    else some (e :: q)

/-- The body of `MemLogger::log(e)`: `q.push_back(e)` followed by the
eviction loop. The `std::lock_guard` makes the whole body one atomic
step. -/
def memLog (max_size : Int) (q : List Entry) (e : Entry) :
    Option (List Entry) :=
  evictLoop max_size (q ++ [e])

/-- Sequentially `log` every entry of `es` into a `MemLogger` that starts
with an empty buffer and has capacity `max_size`. -/
def memLogN (max_size : Int) (es : List Entry) : Option (List Entry) :=
  es.foldlM (memLog max_size) []

/-- The synchronous part of the sink graph: `MultiLogger` (ordered
downstream sinks), `FilteringLogger` (predicate plus one downstream), and
`MemLogger` (capacity plus buffered entries). The `AsyncLogger` is
concurrent and is modelled separately as a transition system. -/
inductive LoggerT where
  | multi : List LoggerT → LoggerT
  | filtering : (Entry → Bool) → LoggerT → LoggerT
  | mem : Int → List Entry → LoggerT

mutual

/-- Virtual dispatch of `Logger::log` over the synchronous sink graph:
`MultiLogger::log` runs `x->log(e)` on each downstream in order;
`FilteringLogger::log` is `if (f(e)) L->log(e);`; `MemLogger::log` is
`memLog`. The result is the updated graph, `none` on undefined behavior. -/
def LoggerT.log : LoggerT → Entry → Option LoggerT
  | .multi Ls, e => (LoggerT.logList Ls e).map .multi
  | .filtering f L, e =>
    if f e then (LoggerT.log L e).map (.filtering f)
    else some (.filtering f L)
  | .mem ms q, e => (memLog ms q e).map (.mem ms)

/-- The loop `for (auto& x : Ls) x->log(e);` of `MultiLogger::log`:
delivers `e` to each downstream sink, first to last. -/
def LoggerT.logList : List LoggerT → Entry → Option (List LoggerT)
  | [], _ => some []
  | L :: Ls, e => do
    let L2 ← LoggerT.log L e
    let Ls2 ← LoggerT.logList Ls e
    pure (L2 :: Ls2)

end

/-- The predicate built by `logger::severityFilter`:
`e.severity >= low && (high == -1 || e.severity <= high)`. -/
def severityFilterPred (low high : Int) (e : Entry) : Bool :=
  decide (e.severity ≥ low) && (high == -1 || decide (e.severity ≤ high))

/-- The combinator `logger::severityFilter(L, low, high)`: a
`FilteringLogger` over `L` with the severity-range predicate. -/
def severityFilter (L : LoggerT) (low high : Int) : LoggerT :=
  .filtering (severityFilterPred low high) L

/-- Control state of the worker thread of one `AsyncLogger`, between the
critical sections of its loop body:
* `spawned`: the thread was created but has not yet run `m.lock()`;
* `delivering e`: it read `e = q.front()` and released the mutex, and the
  call `L->log(e)` has not returned yet;
* `popping`: `L->log(e)` returned; the thread is about to re-acquire the
  mutex, `q.pop_front()`, and re-test the loop condition. -/
inductive WPC where
  | spawned : WPC
  | delivering : Entry → WPC
  | popping : WPC
deriving DecidableEq

/-- Global state of one `AsyncLogger` instance together with its
bookkeeping:
* `q`: the protected deque; `delivered`: the records received so far by
  the downstream sink `L`, in order; `enqueued`: the records passed to
  `log`, in order (history variable);
* `workers`: the control states of all live worker threads spawned by
  this instance and not yet finished;
* `ext`: the number of `Ref<Logger>` handles held outside the instance;
  `rc`: the value of the inherited `refcount` field; `alive`: whether the
  object has not been deleted. -/
structure AState where
  q : List Entry
  delivered : List Entry
  enqueued : List Entry
  workers : List WPC
  ext : Nat
  rc : Int
  alive : Bool
deriving DecidableEq

/-- A freshly constructed `AsyncLogger` held by one external
`Ref<Logger>`: empty queue, no workers, refcount 1. -/
def initAsync : AState :=
  { q := [], delivered := [], enqueued := [], workers := [], ext := 1,
    rc := 1, alive := true }

/-- The body of `AsyncLogger::log(e)` (one critical section under `m`):
`q.push_back(e); if (q.size() == 1) { join-if-joinable; Ref me(this);
worker = thread(...); }`. The join is a no-op at that point (the previous
worker detached itself before the queue could become empty again); the
spawned closure holds the strong reference `me`, hence `rc + 1`. -/
def mkEnq (s : AState) (e : Entry) : AState :=
  if (s.q ++ [e]).length = 1 then
    { s with q := s.q ++ [e], enqueued := s.enqueued ++ [e],
             workers := s.workers ++ [WPC.spawned], rc := s.rc + 1 }
  else
    { s with q := s.q ++ [e], enqueued := s.enqueued ++ [e] }

/-- Interleaved small-step semantics of one `AsyncLogger` instance.
Producer steps (`enq`, and the handle steps `releaseExt`/`acquireExt`)
interleave arbitrarily with the steps of any live worker `i`:
* `beginExit`/`beginRead`: the worker runs `m.lock()` and the first
  `while (q.size() > 0)` test; on failure it runs `worker.detach();
  m.unlock();` and terminates (destroying its `Ref me`, hence `rc - 1`
  and deletion if the count reaches zero); on success it reads
  `q.front()` and unlocks;
* `deliver`: the worker's call `L->log(e)` returns, delivering `e`
  downstream;
* `popCont`/`popExit`: the worker re-locks, runs `q.pop_front()`, and
  re-tests the loop condition, continuing with the new front or
  terminating as above. -/
inductive AStep : AState → AState → Prop where
  | enq (s : AState) (e : Entry) (hext : 1 ≤ s.ext) : AStep s (mkEnq s e)
  | beginExit (s : AState) (i : Nat)
      (hw : s.workers[i]? = some WPC.spawned) (hq : s.q = []) :
      AStep s { s with workers := s.workers.eraseIdx i, rc := s.rc - 1,
                       alive := if s.rc - 1 = 0 then false else s.alive }
  | beginRead (s : AState) (i : Nat) (e : Entry) (rest : List Entry)
      (hw : s.workers[i]? = some WPC.spawned) (hq : s.q = e :: rest) :
      AStep s { s with workers := s.workers.set i (WPC.delivering e) }
  | deliver (s : AState) (i : Nat) (e : Entry)
      (hw : s.workers[i]? = some (WPC.delivering e)) :
      AStep s { s with delivered := s.delivered ++ [e],
                       workers := s.workers.set i WPC.popping }
  | popCont (s : AState) (i : Nat) (x y : Entry) (rest : List Entry)
      (hw : s.workers[i]? = some WPC.popping) (hq : s.q = x :: y :: rest) :
      AStep s { s with q := y :: rest,
                       workers := s.workers.set i (WPC.delivering y) }
  | popExit (s : AState) (i : Nat) (x : Entry)
      (hw : s.workers[i]? = some WPC.popping) (hq : s.q = [x]) :
      AStep s { s with q := [], workers := s.workers.eraseIdx i,
                       rc := s.rc - 1,
                       alive := if s.rc - 1 = 0 then false else s.alive }
  | releaseExt (s : AState) (hext : 1 ≤ s.ext) :
      AStep s { s with ext := s.ext - 1, rc := s.rc - 1,
                       alive := if s.rc - 1 = 0 then false else s.alive }
  | acquireExt (s : AState) (hext : 1 ≤ s.ext) :
      AStep s { s with ext := s.ext + 1, rc := s.rc + 1 }

/-- States of the `AsyncLogger` system reachable from `initAsync`. -/
inductive AsyncReachable : AState → Prop where
  | init : AsyncReachable initAsync
  | step {s t : AState} : AsyncReachable s → AStep s t → AsyncReachable t

/-- Shape invariant tying the (at most one) live worker to the queue and
the delivery history: whatever has been enqueued is the delivery history
followed by the pending queue, except that a `popping` worker has already
delivered the front it is about to pop. -/
def workerInv (s : AState) : Prop :=
  match s.workers with
  | [] => s.delivered ++ s.q = s.enqueued
  | [WPC.spawned] => s.delivered ++ s.q = s.enqueued
  | [WPC.delivering e] =>
      s.delivered ++ s.q = s.enqueued ∧ s.q.head? = some e
  | [WPC.popping] => s.q ≠ [] ∧ s.delivered ++ s.q.tail = s.enqueued
  | _ => False

/-- Inductive invariant of the `AsyncLogger` system: the refcount equals
external handles plus worker-held references, at most one worker is ever
live, the queue is empty exactly when no worker is live, the object is
alive exactly while the refcount is nonzero, and `workerInv` holds. -/
def asyncInv (s : AState) : Prop :=
  s.rc = (s.ext : Int) + s.workers.length ∧
  s.workers.length ≤ 1 ∧
  (s.q = [] ↔ s.workers = []) ∧
  (s.alive = true ↔ s.rc ≠ 0) ∧
  workerInv s

/-- State of one `RefCounted` object (`struct RefCounted { atomic_int
refcount; }`) under the `Ref<T>` handle discipline: `handles` is the
number of live `Ref` handles whose `p` points at it, `rc` its `refcount`
field, `alive` whether it has not been `delete`d. -/
structure RefState where
  handles : Nat
  rc : Int
  alive : Bool
deriving DecidableEq

/-- A `RefCounted` object right after `new`: no handles yet and
`refcount(0)` (the `RefCounted` constructor). -/
def initRef : RefState :=
  { handles := 0, rc := 0, alive := true }

/-- Operations of `Ref<T>` on one object, from src/logger.h:
* `attach`: `Ref(U* p)` built from a raw pointer to the live object
  (`if (p) p->refcount++`);
* `copy`: `Ref(const Ref&)` and the assignment operators' temporary,
  copying an existing handle (`if (p) p->refcount++`);
* `release`: `~Ref()` or `operator=(nullptr)` on a live handle
  (`if (p && --p->refcount == 0) delete p`). -/
inductive RefStep : RefState → RefState → Prop where
  | attach (s : RefState) (halive : s.alive = true) :
      RefStep s { handles := s.handles + 1, rc := s.rc + 1,
                  alive := s.alive }
  | copy (s : RefState) (h : 1 ≤ s.handles) :
      RefStep s { handles := s.handles + 1, rc := s.rc + 1,
                  alive := s.alive }
  | release (s : RefState) (h : 1 ≤ s.handles) :
      RefStep s { handles := s.handles - 1, rc := s.rc - 1,
                  alive := if s.rc - 1 = 0 then false else s.alive }

/-- States of one `RefCounted` object reachable from `initRef`. -/
inductive RefReachable : RefState → Prop where
  | init : RefReachable initRef
  | step {s t : RefState} : RefReachable s → RefStep s t → RefReachable t

/-- Record used by the `severityFilter` witness: severity 0, which a
`low=100` filter must drop. -/
def entryA : Entry :=
  { time := 1, severity := 0, context := "main.cpp:1", message := "A" }

/-- Record used by several witnesses: severity 100, which a `low=100`
filter must forward. -/
def entryB : Entry :=
  { time := 2, severity := 100, context := "main.cpp:2", message := "B" }

/-- Record used by several witnesses: severity 1000, which a `low=100,
high=-1` filter must forward. -/
def entryC : Entry :=
  { time := 3, severity := 1000, context := "main.cpp:3", message := "C" }

/-- Concrete async state for witnesses: one record enqueued into a fresh
`AsyncLogger` (its worker just spawned). -/
def asyncW1 : AState := mkEnq initAsync entryB

/-- Concrete async state for witnesses: after `asyncW1`, the only
external holder releases its handle while the queue is still
non-empty. -/
def asyncW2 : AState :=
  { asyncW1 with ext := asyncW1.ext - 1, rc := asyncW1.rc - 1,
                 alive := if asyncW1.rc - 1 = 0 then false else asyncW1.alive }

/-- Concrete refcount state for witnesses: a `RefCounted` object held by
one `Ref` handle. -/
def refW1 : RefState := { handles := 1, rc := 1, alive := true }

/-- Computing `List.lookup` over the `severities` table: a miss at all
four keys returns `none`. -/
theorem lookup_severities_none (m : Int) (h0 : m ≠ 0) (h1 : m ≠ 100)
    (h2 : m ≠ 200) (h3 : m ≠ 1000) : severities.lookup m = none := by
  have e0 : (m == 0) = false := by simpa using h0
  have e1 : (m == 100) = false := by simpa using h1
  have e2 : (m == 200) = false := by simpa using h2
  have e3 : (m == 1000) = false := by simpa using h3
  simp [severities, List.lookup, e0, e1, e2, e3]

/-- Truncating division by 100 (what C++ `n/100` computes) in terms of
Euclidean division, by sign of the dividend. -/
theorem tdiv_hundred_cast (n : Int) :
    Int.tdiv n 100 = if 0 ≤ n then n / 100 else -((-n) / 100) := by
  by_cases h : 0 ≤ n
  · rw [if_pos h, Int.tdiv_eq_ediv h (by norm_num)]
  · have h2 := Int.neg_tdiv (-n) 100
    rw [neg_neg] at h2
    rw [if_neg h, h2,
      Int.tdiv_eq_ediv (show (0 : Int) ≤ -n by omega) (by norm_num)]

/-- On the band `-99 ≤ n ≤ 99` the name is `"info"`: either the exact key
`0`, or the truncated key `n/100*100 = 0`. -/
theorem sevname_info (n : Int) (h : -99 ≤ n ∧ n ≤ 99) :
    sevname n = "info" := by
  by_cases h0 : n = 0
  · subst h0; rfl
  · have hl1 : severities.lookup n = none :=
      lookup_severities_none n h0 (by omega) (by omega) (by omega)
    have hk : Int.tdiv n 100 * 100 = 0 := by
      rw [tdiv_hundred_cast]; split_ifs <;> omega
    unfold sevname
    rw [hl1, hk]
    rfl

/-- On the band `100 ≤ n ≤ 199` the name is `"warning"`. -/
theorem sevname_warning (n : Int) (h : 100 ≤ n ∧ n ≤ 199) :
    sevname n = "warning" := by
  by_cases h0 : n = 100
  · subst h0; rfl
  · have hl1 : severities.lookup n = none :=
      lookup_severities_none n (by omega) h0 (by omega) (by omega)
    have hk : Int.tdiv n 100 * 100 = 100 := by
      rw [tdiv_hundred_cast]; split_ifs <;> omega
    unfold sevname
    rw [hl1, hk]
    rfl

/-- On the band `200 ≤ n ≤ 299` the name is `"error"`. -/
theorem sevname_error (n : Int) (h : 200 ≤ n ∧ n ≤ 299) :
    sevname n = "error" := by
  by_cases h0 : n = 200
  · subst h0; rfl
  · have hl1 : severities.lookup n = none :=
      lookup_severities_none n (by omega) (by omega) h0 (by omega)
    have hk : Int.tdiv n 100 * 100 = 200 := by
      rw [tdiv_hundred_cast]; split_ifs <;> omega
    unfold sevname
    rw [hl1, hk]
    rfl

/-- On the band `1000 ≤ n ≤ 1099` the name is `"fatal error"`. -/
theorem sevname_fatal (n : Int) (h : 1000 ≤ n ∧ n ≤ 1099) :
    sevname n = "fatal error" := by
  by_cases h0 : n = 1000
  · subst h0; rfl
  · have hl1 : severities.lookup n = none :=
      lookup_severities_none n (by omega) (by omega) (by omega) h0
    have hk : Int.tdiv n 100 * 100 = 1000 := by
      rw [tdiv_hundred_cast]; split_ifs <;> omega
    unfold sevname
    rw [hl1, hk]
    rfl

/-- Outside every band, both lookups miss and the rendering falls back to
`"severity=<n>"`. -/
theorem sevname_unmatched (n : Int)
    (h : n < -99 ∨ (300 ≤ n ∧ n ≤ 999) ∨ 1100 ≤ n) :
    sevname n = "severity=" ++ toString n := by
  have hc := tdiv_hundred_cast n
  have hl1 : severities.lookup n = none :=
    lookup_severities_none n (by omega) (by omega) (by omega) (by omega)
  have hl2 : severities.lookup (Int.tdiv n 100 * 100) = none := by
    apply lookup_severities_none <;> (rw [hc]; split_ifs <;> omega)
  unfold sevname
  rw [hl1, hl2]

/-- C8 (counterexample). The claim's fixed table names severity 1000
`fatal`, but the code's table entry is `"fatal error"`; and the claim's
`rounded down to the nearest hundred` predicts `severity=-50` for
severity `-50` (floor lookup key `-100`, unmatched), but C++ division
truncates toward zero, so the code looks up key `0` and returns
`"info"`. -/
theorem sevname_claim_cex :
    sevname 1000 = "fatal error" ∧ "fatal error" ≠ "fatal" ∧
    sevname (-50) = "info" ∧
    "info" ≠ "severity=" ++ toString (-50 : Int) := by
  refine ⟨rfl, by decide, rfl, by decide⟩

/-- C8 (amended). The severity-name lookup returns the name from the
fixed table `{0:info, 100:warning, 200:error, 1000:fatal error}` on an
exact match; otherwise it looks up `n` truncated toward zero to a
multiple of one hundred (C++ `n/100*100`) in the same table; and if that
still has no match it renders `severity=<n>`. Equivalently, the bands
are `[-99,99] ↦ info`, `[100,199] ↦ warning`, `[200,299] ↦ error`,
`[1000,1099] ↦ fatal error`, and everything else renders
`severity=<n>`. -/
theorem sevname_banded (n : Int) :
    ((-99 ≤ n ∧ n ≤ 99) → sevname n = "info") ∧
    ((100 ≤ n ∧ n ≤ 199) → sevname n = "warning") ∧
    ((200 ≤ n ∧ n ≤ 299) → sevname n = "error") ∧
    ((1000 ≤ n ∧ n ≤ 1099) → sevname n = "fatal error") ∧
    ((n < -99 ∨ (300 ≤ n ∧ n ≤ 999) ∨ 1100 ≤ n) →
      sevname n = "severity=" ++ toString n) :=
  ⟨sevname_info n, sevname_warning n, sevname_error n, sevname_fatal n,
    sevname_unmatched n⟩

/-- Witness for `sevname_banded` at the concrete severities 1000 (exact
match in the fatal band) and 250 (banded lookup via truncation). -/
theorem sevname_banded_witness :
    ((1000 : Int) ≤ 1000 ∧ (1000 : Int) ≤ 1099) ∧
    sevname 1000 = "fatal error" ∧ sevname 250 = "error" :=
  ⟨by norm_num, (sevname_banded 1000).2.2.2.1 (by norm_num),
    (sevname_banded 250).2.2.1 (by norm_num)⟩

/-- With the sentinel capacity `-1` the eviction loop is a no-op. -/
theorem evictLoop_unbounded (q : List Entry) : evictLoop (-1) q = some q := by
  cases q <;> simp [evictLoop]

/-- With capacity `k ≥ 0` the eviction loop pops from the front until the
size is at most `k`, i.e. keeps the last `k` elements; it never pops an
empty buffer. -/
theorem evictLoop_bounded (k : Int) (hk : 0 ≤ k) (q : List Entry) :
    evictLoop k q = some (q.drop (q.length - k.toNat)) := by
  induction q with
  | nil =>
    rw [evictLoop, if_neg (by simp; omega)]
    simp
  | cons e q ih =>
    rw [evictLoop]
    by_cases hgt : ((q.length + 1 : Int)) > k
    · rw [if_pos ⟨by omega, by simpa using hgt⟩, ih]
      have h1 : (e :: q).length - k.toNat = (q.length - k.toNat) + 1 := by
        simp only [List.length_cons]; omega
      rw [h1, List.drop_succ_cons]
    · rw [if_neg (by simp; omega)]
      have h1 : (e :: q).length - k.toNat = 0 := by
        simp only [List.length_cons]; omega
      rw [h1, List.drop_zero]

/-- With any capacity below `-1` the loop condition never fails, so the
loop drains the whole buffer and then pops the empty deque (undefined
behavior, modelled as `none`). -/
theorem evictLoop_negative (k : Int) (hk : k ≤ -2) (q : List Entry) :
    evictLoop k q = none := by
  induction q with
  | nil => rw [evictLoop, if_pos ⟨by omega, by simp; omega⟩]
  | cons e q ih =>
    rw [evictLoop, if_pos ⟨by omega, by simp; omega⟩, ih]

/-- Folding `memLog` with capacity `k ≥ 0` over a record list keeps
exactly the last `k` records, provided the accumulator already fits. -/
theorem foldlM_memLog (k : Int) (hk : 0 ≤ k) (es : List Entry) :
    ∀ acc : List Entry, acc.length ≤ k.toNat →
      List.foldlM (memLog k) acc es =
        some ((acc ++ es).drop ((acc ++ es).length - k.toNat)) := by
  induction es with
  | nil =>
    intro acc hacc
    simp only [List.foldlM, List.append_nil]
    rw [show acc.length - k.toNat = 0 by omega, List.drop_zero]
    rfl
  | cons e es ih =>
    intro acc hacc
    have hm : memLog k acc e =
        some ((acc ++ [e]).drop ((acc ++ [e]).length - k.toNat)) := by
      rw [memLog, evictLoop_bounded k hk]
    have hlen :
        ((acc ++ [e]).drop ((acc ++ [e]).length - k.toNat)).length
          ≤ k.toNat := by
      rw [List.length_drop]
      omega
    calc List.foldlM (memLog k) acc (e :: es)
        = memLog k acc e >>= fun b => List.foldlM (memLog k) b es := by
          simp [List.foldlM]
      _ = List.foldlM (memLog k)
            ((acc ++ [e]).drop ((acc ++ [e]).length - k.toNat)) es := by
          rw [hm]; rfl
      _ = some ((acc ++ e :: es).drop ((acc ++ e :: es).length
            - k.toNat)) := by
          rw [ih _ hlen]
          have hd : (acc ++ [e]).length - k.toNat ≤ (acc ++ [e]).length := by
            omega
          have e1 : (acc ++ [e]).drop ((acc ++ [e]).length - k.toNat) ++ es
              = ((acc ++ [e]) ++ es).drop ((acc ++ [e]).length - k.toNat) :=
            (List.drop_append_of_le_length hd).symm
          rw [e1, List.drop_drop]
          congr 2
          · simp [List.length_drop]
            omega
          · simp

/-- Folding `memLog` with the sentinel capacity `-1` appends every record
and never evicts. -/
theorem foldlM_memLog_unbounded (es : List Entry) :
    ∀ acc : List Entry,
      List.foldlM (memLog (-1)) acc es = some (acc ++ es) := by
  induction es with
  | nil => intro acc; simp [List.foldlM]
  | cons e es ih =>
    intro acc
    calc List.foldlM (memLog (-1)) acc (e :: es)
        = memLog (-1) acc e >>= fun b => List.foldlM (memLog (-1)) b es := by
          simp [List.foldlM]
      _ = List.foldlM (memLog (-1)) (acc ++ [e]) es := by
          rw [memLog, evictLoop_unbounded]; rfl
      _ = some (acc ++ e :: es) := by rw [ih]; simp

/-- C5. For every `MemLogger` with capacity `k ≥ 0`, `log` appends the
record at the tail and evicts from the head until the size is within the
capacity: one `log` keeps the last `k` of `q ++ [e]`, and inserting `es`
into an empty buffer leaves exactly the last `k` records of `es` in
insertion order (`drop (n - k)`, the whole list when `n ≤ k`). With
capacity `-1` nothing is ever evicted. -/
theorem memLogger_eviction (k : Int) (q es : List Entry) (e : Entry) :
    (0 ≤ k → memLog k q e
      = some ((q ++ [e]).drop ((q ++ [e]).length - k.toNat))) ∧
    (0 ≤ k → memLogN k es = some (es.drop (es.length - k.toNat))) ∧
    memLog (-1) q e = some (q ++ [e]) ∧
    memLogN (-1) es = some es := by
  refine ⟨fun hk => ?_, fun hk => ?_, ?_, ?_⟩
  · rw [memLog, evictLoop_bounded k hk]
  · have h := foldlM_memLog k hk es [] (by simp)
    simpa [memLogN] using h
  · rw [memLog, evictLoop_unbounded]
  · have h := foldlM_memLog_unbounded es []
    simpa [memLogN] using h

/-- Witness for `memLogger_eviction`: capacity 2, three inserts, the
buffer holds exactly the last two records. -/
theorem memLogger_eviction_witness :
    (0 : Int) ≤ 2 ∧
    memLogN 2 [entryA, entryB, entryC] = some [entryB, entryC] := by
  refine ⟨by norm_num, ?_⟩
  have h :=
    (memLogger_eviction 2 [] [entryA, entryB, entryC] entryA).2.1
      (by norm_num)
  rw [h]
  rfl

/-- C10. Under the precondition `max_size ≥ 0` or `max_size = -1` the
eviction loop inside `MemLogger::log` never pops an empty buffer (the
result is always `some`); and only exactly `-1` acts as the unbounded
sentinel: for every `max_size ≤ -2` the loop drains the buffer and then
pops the empty deque (undefined behavior, `none`). -/
theorem memLogger_no_empty_pop (k : Int) (q : List Entry) (e : Entry) :
    ((0 ≤ k ∨ k = -1) → (memLog k q e).isSome = true) ∧
    (k ≤ -2 → memLog k q e = none) := by
  constructor
  · rintro (hk | hk)
    · rw [memLog, evictLoop_bounded k hk]
      rfl
    · subst hk
      rw [memLog, evictLoop_unbounded]
      rfl
  · intro hk
    rw [memLog, evictLoop_negative k hk]

/-- Witness for `memLogger_no_empty_pop`: capacity 0 yields a result,
capacity `-2` reaches the empty pop. -/
theorem memLogger_no_empty_pop_witness :
    ((0 : Int) ≤ 0 ∨ (0 : Int) = -1) ∧
    (memLog 0 [] entryA).isSome = true ∧
    memLog (-2) [] entryA = none :=
  ⟨Or.inl (by norm_num),
    (memLogger_no_empty_pop 0 [] entryA).1 (Or.inl (by norm_num)),
    (memLogger_no_empty_pop (-2) [] entryA).2 (by norm_num)⟩

/-- C6. The severity range filter forwards a record to its downstream
sink exactly when `severity >= low` and (`high = -1` or
`severity <= high`): the built predicate decides that proposition, a
passing record is forwarded to the downstream sink unchanged in any other
respect, and a failing record leaves the downstream sink untouched. -/
theorem severityFilter_correct (low high : Int) (e : Entry) (L : LoggerT) :
    (severityFilterPred low high e = true
      ↔ (low ≤ e.severity ∧ (high = -1 ∨ e.severity ≤ high))) ∧
    ((low ≤ e.severity ∧ (high = -1 ∨ e.severity ≤ high)) →
      (severityFilter L low high).log e
        = (L.log e).map (.filtering (severityFilterPred low high))) ∧
    (¬(low ≤ e.severity ∧ (high = -1 ∨ e.severity ≤ high)) →
      (severityFilter L low high).log e
        = some (severityFilter L low high)) := by
  have hiff : severityFilterPred low high e = true
      ↔ (low ≤ e.severity ∧ (high = -1 ∨ e.severity ≤ high)) := by
    simp [severityFilterPred]
  refine ⟨hiff, fun h => ?_, fun h => ?_⟩
  · rw [severityFilter, LoggerT.log, if_pos (hiff.mpr h)]
  · rw [severityFilter, LoggerT.log,
      if_neg (fun hc => h (hiff.mp hc))]

/-- Witness for `severityFilter_correct`: with `low=100, high=-1` over a
fresh unbounded `MemLogger`, severities 100 and 1000 are forwarded (the
record lands in the buffer) and severity 0 is dropped (the sink graph is
unchanged). -/
theorem severityFilter_correct_witness :
    ((100 : Int) ≤ entryB.severity ∧
      ((-1 : Int) = -1 ∨ entryB.severity ≤ -1)) ∧
    (severityFilter (.mem (-1) []) 100 (-1)).log entryB
      = some (.filtering (severityFilterPred 100 (-1))
          (.mem (-1) [entryB])) ∧
    (severityFilter (.mem (-1) []) 100 (-1)).log entryC
      = some (.filtering (severityFilterPred 100 (-1))
          (.mem (-1) [entryC])) ∧
    (severityFilter (.mem (-1) []) 100 (-1)).log entryA
      = some (severityFilter (.mem (-1) []) 100 (-1)) := by
  refine ⟨⟨by decide, Or.inl rfl⟩, ?_, ?_, ?_⟩
  · have h :=
      (severityFilter_correct 100 (-1) entryB (.mem (-1) [])).2.1
        ⟨by decide, Or.inl rfl⟩
    rw [h]
    rfl
  · have h :=
      (severityFilter_correct 100 (-1) entryC (.mem (-1) [])).2.1
        ⟨by decide, Or.inl rfl⟩
    rw [h]
    rfl
  · exact (severityFilter_correct 100 (-1) entryA (.mem (-1) [])).2.2
      (by intro hc; exact absurd hc.1 (by decide))

/-- Delivering one record to a list of unbounded `MemLogger` sinks via
the loop of `MultiLogger::log` appends it to every buffer. -/
theorem logList_mem_unbounded (e : Entry) (qss : List (List Entry)) :
    LoggerT.logList (qss.map (fun q => .mem (-1) q)) e
      = some (qss.map (fun q => .mem (-1) (q ++ [e]))) := by
  induction qss with
  | nil => rfl
  | cons q qss ih =>
    have h1 : LoggerT.log (.mem (-1) q) e = some (.mem (-1) (q ++ [e])) := by
      rw [LoggerT.log, memLog, evictLoop_unbounded]
      rfl
    rw [List.map_cons, LoggerT.logList, h1, ih]
    rfl

/-- C7. `MultiLogger::log(e)` invokes `log(e)` with the identical record
on each downstream sink in construction order: over any list of
unbounded `MemLogger` downstreams, one `log` appends the same record to
the tail of every one of their buffers, first to last. -/
theorem multiLogger_fanout (qss : List (List Entry)) (e : Entry) :
    LoggerT.log (.multi (qss.map (fun q => .mem (-1) q))) e
      = some (.multi (qss.map (fun q => .mem (-1) (q ++ [e])))) := by
  rw [LoggerT.log, logList_mem_unbounded]
  rfl

/-- In a worker list of length at most one, an index that resolves to a
worker pins the list to exactly that one worker at index zero. -/
theorem workers_singleton {ws : List WPC} {i : Nat} {w : WPC}
    (hlen : ws.length ≤ 1) (hw : ws[i]? = some w) : ws = [w] ∧ i = 0 := by
  match ws, i with
  | [], i => simp at hw
  | [a], 0 =>
    simp at hw
    simp [hw]
  | [a], (i + 1) => simp at hw
  | a :: b :: l, i => simp at hlen

/-- Appending on the right of a nonempty list does not change its head. -/
theorem head_of_append {q : List Entry} (r : List Entry) (h : q ≠ []) :
    (q ++ r).head? = q.head? := by
  cases q with
  | nil => exact absurd rfl h
  | cons a t => rfl

/-- Appending on the right of a nonempty list commutes with `tail`. -/
theorem tail_of_append {q : List Entry} (r : List Entry) (h : q ≠ []) :
    (q ++ r).tail = q.tail ++ r := by
  cases q with
  | nil => exact absurd rfl h
  | cons a t => rfl

/-- Every step of the `AsyncLogger` system preserves the inductive
invariant. -/
theorem asyncInv_step {s t : AState} (hs : asyncInv s) (hst : AStep s t) :
    asyncInv t := by
  obtain ⟨hrc, hlen, hqw, halive, hwinv⟩ := hs
  cases hst
  case enq e hext =>
    by_cases hq : s.q = []
    · have hws : s.workers = [] := hqw.mp hq
      have hc : (s.q ++ [e]).length = 1 := by rw [hq]; rfl
      rw [mkEnq, if_pos hc]
      simp only [workerInv, hws] at hwinv
      have hrcv : s.rc = (s.ext : Int) := by rw [hrc, hws]; simp
      have halive1 : s.alive = true := halive.mpr (by rw [hrcv]; omega)
      refine ⟨?_, ?_, ?_, ?_, ?_⟩
      · simp [hws, hrcv]
      · simp [hws]
      · simp [hws]
      · have h1 : s.rc + 1 ≠ 0 := by rw [hrcv]; omega
        simp [halive1, h1]
      · simp only [workerInv, hws, List.nil_append]
        rw [hq] at hwinv ⊢
        simp only [List.append_nil] at hwinv
        simp [hwinv]
    · have hc : ¬((s.q ++ [e]).length = 1) := by
        cases hqe : s.q with
        | nil => exact absurd hqe hq
        | cons a t => simp
      rw [mkEnq, if_neg hc]
      have hwne : s.workers ≠ [] := fun h => hq (hqw.mpr h)
      refine ⟨by simp [hrc], by simpa using hlen, by simp [hwne],
        by simpa using halive, ?_⟩
      obtain ⟨w, hws⟩ : ∃ w, s.workers = [w] := by
        cases hsws : s.workers with
        | nil => exact absurd hsws hwne
        | cons a l =>
          cases l with
          | nil => exact ⟨a, rfl⟩
          | cons b m => rw [hsws] at hlen; simp at hlen
      simp only [workerInv, hws] at hwinv ⊢
      cases w with
      | spawned => rw [← List.append_assoc, hwinv]
      | delivering e2 =>
        obtain ⟨h1, h2⟩ := hwinv
        exact ⟨by rw [← List.append_assoc, h1],
          by rw [head_of_append [e] hq]; exact h2⟩
      | popping =>
        obtain ⟨h1, h2⟩ := hwinv
        refine ⟨by simp, ?_⟩
        rw [tail_of_append [e] h1, ← List.append_assoc, h2]
  case beginExit i hw hq =>
    have hws : s.workers = [] := hqw.mp hq
    rw [hws] at hw
    simp at hw
  case beginRead i e rest hw hq =>
    obtain ⟨hws, hi⟩ := workers_singleton hlen hw
    subst hi
    simp only [workerInv, hws] at hwinv
    refine ⟨by simp [hws, hrc], by simp [hws], by simp [hws, hq],
      by simpa using halive, ?_⟩
    simp only [workerInv, hws, List.set]
    exact ⟨hwinv, by rw [hq]; rfl⟩
  case deliver i e hw =>
    obtain ⟨hws, hi⟩ := workers_singleton hlen hw
    subst hi
    simp only [workerInv, hws] at hwinv
    obtain ⟨heq, hhead⟩ := hwinv
    have hqne : s.q ≠ [] := by
      intro h
      rw [h] at hhead
      simp at hhead
    refine ⟨by simp [hws, hrc], by simp [hws], by simp [hws, hqne],
      by simpa using halive, ?_⟩
    simp only [workerInv, hws, List.set]
    cases hq2 : s.q with
    | nil => exact absurd hq2 hqne
    | cons a t =>
      rw [hq2] at hhead heq
      simp only [List.head?_cons, Option.some.injEq] at hhead
      subst hhead
      refine ⟨by simp, ?_⟩
      simp only [List.tail_cons]
      rw [List.append_assoc]
      simpa using heq
  case popCont i x y rest hw hq =>
    obtain ⟨hws, hi⟩ := workers_singleton hlen hw
    subst hi
    simp only [workerInv, hws] at hwinv
    obtain ⟨hne, heq⟩ := hwinv
    rw [hq] at heq
    simp only [List.tail_cons] at heq
    refine ⟨by simp [hws, hrc], by simp [hws], by simp [hws],
      by simpa using halive, ?_⟩
    simp only [workerInv, hws, List.set]
    exact ⟨heq, rfl⟩
  case popExit i x hw hq =>
    obtain ⟨hws, hi⟩ := workers_singleton hlen hw
    subst hi
    simp only [workerInv, hws] at hwinv
    obtain ⟨hne, heq⟩ := hwinv
    rw [hq] at heq
    simp only [List.tail_cons, List.append_nil] at heq
    have hrcv : s.rc = (s.ext : Int) + 1 := by rw [hrc, hws]; simp
    refine ⟨?_, ?_, ?_, ?_, ?_⟩
    · simp [hws, hrcv]
    · simp [hws]
    · simp [hws]
    · by_cases hz : s.rc - 1 = 0
      · simp [hz]
      · have ha : s.alive = true := halive.mpr (by rw [hrcv]; omega)
        simp [hz, ha]
    · simp only [workerInv, hws, List.eraseIdx]
      simp [heq]
  case releaseExt hext =>
    refine ⟨?_, by simpa using hlen, by simpa using hqw, ?_, ?_⟩
    · rw [hrc]
      push_cast [hext]
      omega
    · by_cases hz : s.rc - 1 = 0
      · simp [hz]
      · have ha : s.alive = true := halive.mpr (by rw [hrc]; omega)
        simp [hz, ha]
    · exact hwinv
  case acquireExt hext =>
    have ha : s.alive = true := halive.mpr (by rw [hrc]; omega)
    have h1 : s.rc + 1 ≠ 0 := by rw [hrc]; omega
    refine ⟨?_, by simpa using hlen, by simpa using hqw, by simp [ha, h1], ?_⟩
    · rw [hrc]
      push_cast
      omega
    · exact hwinv

/-- The inductive invariant holds in every reachable state of the
`AsyncLogger` system. -/
theorem asyncInv_reachable {s : AState} (h : AsyncReachable s) :
    asyncInv s := by
  induction h with
  | init =>
    refine ⟨by simp [initAsync], by simp [initAsync], by simp [initAsync],
      by simp [initAsync], ?_⟩
    simp [workerInv, initAsync]
  | step hr hst ih => exact asyncInv_step ih hst

/-- C1. In every reachable state of a single `AsyncLogger` instance, the
records delivered to the downstream sink are exactly the first records
enqueued, in enqueue order (strict FIFO, no skips); whenever the queue
has fully drained, everything enqueued has been delivered. -/
theorem asyncLogger_fifo (s : AState) (h : AsyncReachable s) :
    s.delivered = s.enqueued.take s.delivered.length ∧
    (s.q = [] → s.delivered = s.enqueued) := by
  obtain ⟨hrc, hlen, hqw, halive, hwinv⟩ := asyncInv_reachable h
  have hkey : ∃ p, s.delivered ++ p = s.enqueued := by
    cases hws : s.workers with
    | nil =>
      simp only [workerInv, hws] at hwinv
      exact ⟨s.q, hwinv⟩
    | cons w ws =>
      rw [hws] at hlen
      cases ws with
      | cons b m => simp at hlen
      | nil =>
        simp only [workerInv, hws] at hwinv
        cases w with
        | spawned => exact ⟨s.q, hwinv⟩
        | delivering e2 => exact ⟨s.q, hwinv.1⟩
        | popping => exact ⟨s.q.tail, hwinv.2⟩
  obtain ⟨p, hp⟩ := hkey
  constructor
  · rw [← hp, List.take_left]
  · intro hq
    have hwsq : s.workers = [] := hqw.mp hq
    simp only [workerInv, hwsq] at hwinv
    rw [← hwinv, hq, List.append_nil]

/-- Witness for `asyncLogger_fifo`: the reachable state after one
`log(entryB)` on a fresh `AsyncLogger`. -/
theorem asyncLogger_fifo_witness :
    asyncW1.delivered = asyncW1.enqueued.take asyncW1.delivered.length ∧
    (asyncW1.q = [] → asyncW1.delivered = asyncW1.enqueued) :=
  asyncLogger_fifo asyncW1
    (AsyncReachable.step AsyncReachable.init
      (AStep.enq initAsync entryB (by decide)))

/-- C2. In every reachable state at most one worker of an `AsyncLogger`
is live (so no two downstream deliveries of one instance can overlap);
when the queue is empty there is no live worker at all, so the spawn in
`log` happens only on the idle-to-non-empty edge; and across any step the
worker count stays at most one, a worker disappearing only in a step that
leaves the queue empty (the worker exits only after observing the empty
queue under the queue lock). -/
theorem asyncLogger_single_worker (s t : AState) (h : AsyncReachable s)
    (hst : AStep s t) :
    s.workers.length ≤ 1 ∧ (s.q = [] → s.workers = []) ∧
    t.workers.length ≤ 1 ∧
    (t.workers.length < s.workers.length → t.q = []) := by
  obtain ⟨hrc, hlen, hqw, halive, hwinv⟩ := asyncInv_reachable h
  have hinvt := asyncInv_step (asyncInv_reachable h) hst
  refine ⟨hlen, fun hq => hqw.mp hq, hinvt.2.1, fun hdec => ?_⟩
  cases hst
  case enq e hext =>
    rw [mkEnq] at hdec
    by_cases hc : (s.q ++ [e]).length = 1
    · rw [if_pos hc] at hdec
      simp at hdec
    · rw [if_neg hc] at hdec
      simp at hdec
  case beginExit i hw hq => exact hq
  case beginRead i e rest hw hq => simp [List.length_set] at hdec
  case deliver i e hw => simp [List.length_set] at hdec
  case popCont i x y rest hw hq => simp [List.length_set] at hdec
  case popExit i x hw hq => rfl
  case releaseExt hext => simp at hdec
  case acquireExt hext => simp at hdec

/-- Witness for `asyncLogger_single_worker`: the initial state and its
first `log` step. -/
theorem asyncLogger_single_worker_witness :
    initAsync.workers.length ≤ 1 ∧
    (initAsync.q = [] → initAsync.workers = []) ∧
    asyncW1.workers.length ≤ 1 ∧
    (asyncW1.workers.length < initAsync.workers.length →
      asyncW1.q = []) :=
  asyncLogger_single_worker initAsync asyncW1 AsyncReachable.init
    (AStep.enq initAsync entryB (by decide))

/-- C3. While any worker of an `AsyncLogger` is live (spawned, mid-call
into the downstream sink, or about to pop) the instance's refcount stays
at least 1 — the worker's own strong reference `me` — and the object has
not been destroyed, even if every external holder has released it. -/
theorem asyncLogger_drain_keeps_alive (s : AState) (h : AsyncReachable s) :
    s.workers ≠ [] → 1 ≤ s.rc ∧ s.alive = true := by
  obtain ⟨hrc, hlen, hqw, halive, hwinv⟩ := asyncInv_reachable h
  intro hne
  have hpos : 0 < s.workers.length := List.length_pos.mpr hne
  have h1 : 1 ≤ s.rc := by rw [hrc]; omega
  exact ⟨h1, halive.mpr (by omega)⟩

/-- Witness for `asyncLogger_drain_keeps_alive`: after one `log` and the
release of the only external handle, the worker is still live and keeps
the refcount at 1. -/
theorem asyncLogger_drain_keeps_alive_witness :
    asyncW2.workers ≠ [] ∧ 1 ≤ asyncW2.rc ∧ asyncW2.alive = true := by
  have hne : asyncW2.workers ≠ [] := by decide
  have hr : AsyncReachable asyncW2 :=
    AsyncReachable.step
      (AsyncReachable.step AsyncReachable.init
        (AStep.enq initAsync entryB (by decide)))
      (AStep.releaseExt asyncW1 (by decide))
  exact ⟨hne, asyncLogger_drain_keeps_alive asyncW2 hr hne⟩

/-- C4. The body of `AsyncLogger::log` only appends the record at the
tail of the instance's own queue, records it in the enqueue history, and
possibly spawns a worker (the worker handle plus the worker's strong
reference): the downstream delivery history, the external handle count
and the liveness of the object are untouched, so the caller's thread
never invokes the downstream sink and never waits for delivery. -/
theorem asyncLogger_log_frame (s : AState) (e : Entry) :
    (mkEnq s e).q = s.q ++ [e] ∧
    (mkEnq s e).delivered = s.delivered ∧
    (mkEnq s e).enqueued = s.enqueued ++ [e] ∧
    (mkEnq s e).ext = s.ext ∧
    (mkEnq s e).alive = s.alive ∧
    ((mkEnq s e).workers = s.workers ++ [WPC.spawned] ∧
        (mkEnq s e).rc = s.rc + 1 ∨
      (mkEnq s e).workers = s.workers ∧ (mkEnq s e).rc = s.rc) := by
  rw [mkEnq]
  by_cases hc : (s.q ++ [e]).length = 1
  · rw [if_pos hc]
    exact ⟨rfl, rfl, rfl, rfl, rfl, Or.inl ⟨rfl, rfl⟩⟩
  · rw [if_neg hc]
    exact ⟨rfl, rfl, rfl, rfl, rfl, Or.inr ⟨rfl, rfl⟩⟩

/-- One step of the `Ref` handle discipline preserves the refcount
invariant. -/
theorem refInv_step {s t : RefState} (hrc : s.rc = (s.handles : Int))
    (hal : s.alive = false → s.handles = 0) (hst : RefStep s t) :
    t.rc = (t.handles : Int) ∧ (t.alive = false → t.handles = 0) := by
  cases hst
  case attach halive =>
    refine ⟨by push_cast; omega, fun hf => ?_⟩
    replace hf : s.alive = false := hf
    rw [halive] at hf
    exact absurd hf (by simp)
  case copy h1 =>
    refine ⟨by push_cast; omega, fun hf => ?_⟩
    replace hf : s.alive = false := hf
    exact absurd (hal hf) (by omega)
  case release h1 =>
    refine ⟨by push_cast [h1]; omega, fun hf => ?_⟩
    replace hf : (if s.rc - 1 = 0 then false else s.alive) = false := hf
    show s.handles - 1 = 0
    by_cases hz : s.rc - 1 = 0
    · omega
    · rw [if_neg hz] at hf
      exact absurd (hal hf) (by omega)

/-- The refcount invariant of one `RefCounted` object: the `refcount`
field always equals the number of live handles, and a destroyed object
has no handles. -/
theorem refInv_reachable {s : RefState} (h : RefReachable s) :
    s.rc = (s.handles : Int) ∧ (s.alive = false → s.handles = 0) := by
  induction h with
  | init => exact ⟨rfl, fun _ => rfl⟩
  | step hr hst ih => exact refInv_step ih.1 ih.2 hst

/-- C9. A `RefCounted` sink is destroyed exactly when its last holder
releases it: in every reachable state the `refcount` field equals the
number of live `Ref` handles (each handle construction or copy
incremented it, each destruction or null-assignment decremented it), the
object is alive whenever any handle is live, and a step destroys the
object exactly when it brings the count to zero. -/
theorem ref_lifecycle (s t : RefState) (h : RefReachable s)
    (hst : RefStep s t) :
    s.rc = (s.handles : Int) ∧
    (1 ≤ s.handles → s.alive = true) ∧
    (t.alive = false ∧ s.alive = true → t.rc = 0 ∧ t.handles = 0) ∧
    (t.rc = 0 → t.alive = false) := by
  obtain ⟨hrc, hal⟩ := refInv_reachable h
  refine ⟨hrc, fun hh => ?_, fun hd => ?_, fun hz => ?_⟩
  · cases ha : s.alive with
    | true => rfl
    | false => exact absurd (hal ha) (by omega)
  · obtain ⟨htf, hta⟩ := hd
    cases hst
    case attach halive =>
      replace htf : s.alive = false := htf
      rw [hta] at htf
      exact absurd htf (by simp)
    case copy h1 =>
      replace htf : s.alive = false := htf
      rw [hta] at htf
      exact absurd htf (by simp)
    case release h1 =>
      replace htf : (if s.rc - 1 = 0 then false else s.alive) = false := htf
      by_cases hz2 : s.rc - 1 = 0
      · refine ⟨hz2, ?_⟩
        show s.handles - 1 = 0
        omega
      · rw [if_neg hz2, hta] at htf
        exact absurd htf (by simp)
  · cases hst
    case attach halive =>
      replace hz : s.rc + 1 = 0 := hz
      exact absurd hz (by omega)
    case copy h1 =>
      replace hz : s.rc + 1 = 0 := hz
      exact absurd hz (by omega)
    case release h1 =>
      replace hz : s.rc - 1 = 0 := hz
      show (if s.rc - 1 = 0 then false else s.alive) = false
      rw [if_pos hz]

/-- Witness for `ref_lifecycle`: a single handle on a fresh object, then
its release, which destroys the object at count zero. -/
theorem ref_lifecycle_witness :
    refW1.rc = (refW1.handles : Int) ∧
    (1 ≤ refW1.handles → refW1.alive = true) ∧
    (({ handles := 0, rc := 0, alive := false } : RefState).alive = false ∧
        refW1.alive = true →
      ({ handles := 0, rc := 0, alive := false } : RefState).rc = 0 ∧
      ({ handles := 0, rc := 0, alive := false } : RefState).handles = 0) ∧
    (({ handles := 0, rc := 0, alive := false } : RefState).rc = 0 →
      ({ handles := 0, rc := 0, alive := false } : RefState).alive
        = false) :=
  ref_lifecycle refW1 { handles := 0, rc := 0, alive := false }
    (RefReachable.step RefReachable.init (RefStep.attach initRef rfl))
    (RefStep.release refW1 (by decide))

end LoggerSpec
